import Mathlib

/-!
# Verification of the Spotify liked-songs genre-filter app

Shallow embedding of the core modules of the repository
(`utils/genreSearch`, `useGenreFilter`, `spotify` API wrapper, `lastfm.ts`,
`useSpotify.fetchAllLikedSongs`) together with proofs settling the frozen
claims about them.

Strings are modelled over their character lists; JavaScript's `\s`
whitespace class, ASCII `toLowerCase`, and `trim` are embedded explicitly.
All definitions are written with structural recursion (a fuel argument
equal to the list length where the source loop skips several characters at
once) so that every function evaluates inside the kernel.
-/

/-! ## Character-level helpers shared by several modules -/

/-- JavaScript's `\s` class restricted to the ASCII range: space, tab,
line feed, vertical tab, form feed, carriage return. -/
def jsSp (c : Char) : Bool :=
  c = ' ' || c = '\t' || c = '\n' || c = '\x0b' || c = '\x0c' || c = '\r'

/-- ASCII case folding as performed by `String.prototype.toLowerCase`
on the ASCII subset: map `A`-`Z` to `a`-`z`, fix everything else. -/
def jsToLower (c : Char) : Char :=
  if 'A' ≤ c && c ≤ 'Z' then Char.ofNat (c.toNat + 32) else c

/-- `String.prototype.trim`: drop leading and trailing whitespace. -/
def trimWs (l : List Char) : List Char :=
  ((l.dropWhile jsSp).reverse.dropWhile jsSp).reverse

/-- Substring test, `hay.includes(needle)` with the needle given first:
true iff `needle` occurs contiguously inside `hay`. -/
def containsSub (needle : List Char) : List Char → Bool
  | [] => needle.isEmpty
  | c :: cs => needle.isPrefixOf (c :: cs) || containsSub needle cs

/-- `hay.includes(needle)` on strings. -/
def strIncludes (hay needle : String) : Bool :=
  containsSub needle.toList hay.toList

/-! ## `utils/genreSearch.ts`: `toGenreSearchKey` -/

/-- The `&`/`+` normalization step: `.replace(/&/g, " and ").replace(/\+/g, " and ")`.
The first replacement introduces no `+`, so a single pass handles both. -/
def expandAmps (l : List Char) : List Char :=
  l.flatMap fun c => if c = '&' || c = '+' then " and ".toList else [c]

/-- `.replace(/\s+/g, " ")`: collapse every maximal whitespace run to a
single space.  Fuel = list length (each step consumes at least one char). -/
def collapseWsGo : Nat → List Char → List Char
  | 0, l => l
  | _, [] => []
  | fuel + 1, c :: cs =>
    if jsSp c then ' ' :: collapseWsGo fuel (cs.dropWhile jsSp)
    else c :: collapseWsGo fuel cs

def collapseWs (l : List Char) : List Char := collapseWsGo l.length l

/-- Characters kept by `.replace(/[^a-z0-9]/g, "")`. -/
def isKeyChar (c : Char) : Bool :=
  ('a' ≤ c && c ≤ 'z') || ('0' ≤ c && c ≤ '9')

/-- The alias pattern `randb`. -/
def rdbPat : List Char := ['r', 'a', 'n', 'd', 'b']

/-- `.replace(/randb/g, "rnb")`: leftmost, non-overlapping global
replacement.  Fuel = list length. -/
def collapseRandbGo : Nat → List Char → List Char
  | 0, l => l
  | _, [] => []
  | fuel + 1, c :: cs =>
    if rdbPat.isPrefixOf (c :: cs) then
      'r' :: 'n' :: 'b' :: collapseRandbGo fuel (cs.drop 4)
    else c :: collapseRandbGo fuel cs

def collapseRandb (l : List Char) : List Char := collapseRandbGo l.length l

/-- `toGenreSearchKey` from `utils/genreSearch.ts`:
lower-case and trim; expand `&`/`+` to `" and "`; collapse whitespace and
trim; strip everything outside `[a-z0-9]`; collapse `randb` to `rnb`. -/
def toGenreSearchKey (s : String) : String :=
  let t := trimWs (s.toList.map jsToLower)
  if t.isEmpty then "" else
  let t := trimWs (collapseWs (expandAmps t))
  let t := t.filter isKeyChar
  String.mk (collapseRandb t)

/-! ## `utils/genreSearch.ts`: `parseGenreQuery` -/

/-- Split a character list at every `,` or `|`. -/
def splitSepChars : List Char → List (List Char)
  | [] => [[]]
  | c :: cs =>
    if c = ',' || c = '|' then [] :: splitSepChars cs
    else
      match splitSepChars cs with
      | h :: t => (c :: h) :: t
      | [] => [[c]]

/-- Split the free text on `/[,\|]+/`, trim each piece, drop empties.
Splitting on every single separator character and then dropping the empty
pieces yields the same list as splitting on maximal separator runs. -/
def splitTerms (input : String) : List String :=
  ((splitSepChars input.toList).map
      fun t => String.mk (trimWs t)).filter (· ≠ "")

/-- The parsed query `{ include, exclude }`.  `include` is a Lean keyword,
so the two fields carry a `Keys` suffix. -/
structure GenreQuery where
  includeKeys : List String
  excludeKeys : List String
deriving DecidableEq, Repr

/-- The term loop of `parseGenreQuery`: classify each raw term as include
or exclude, normalize, drop empty keys, de-duplicate preserving order. -/
def parseGenreQueryGo : List String → List String → List String → GenreQuery
  | [], inc, exc => ⟨inc, exc⟩
  | t :: ts, inc, exc =>
    let isExcl := t.toList.take 1 = ['-'] || t.toList.take 1 = ['!']
    let cleaned := if isExcl then String.mk (trimWs (t.toList.drop 1)) else t
    let key := toGenreSearchKey cleaned
    if key = "" then parseGenreQueryGo ts inc exc
    else if isExcl then
      if key ∈ exc then parseGenreQueryGo ts inc exc
      else parseGenreQueryGo ts inc (exc ++ [key])
    else
      if key ∈ inc then parseGenreQueryGo ts inc exc
      else parseGenreQueryGo ts (inc ++ [key]) exc

def parseGenreQuery (input : String) : GenreQuery :=
  parseGenreQueryGo (splitTerms input) [] []

/-! ## `useGenreFilter` (part_002): `filteredSongs` -/

/-- A song as seen by the filter: only the `genres` field is inspected;
the payload stands for all remaining track fields. -/
structure SongT (α : Type) where
  payload : α
  genres : List String
deriving DecidableEq, Repr

/-- The predicate inside `songs.filter(...)` of `useGenreFilter.filteredSongs`. -/
def songMatches (q : GenreQuery) (genres : List String) : Bool :=
  if genres.isEmpty then false else
  let genreKeys := (genres.map toGenreSearchKey).filter (· ≠ "")
  let matchesInclude :=
    q.includeKeys.isEmpty ||
      q.includeKeys.any fun term => genreKeys.any fun g => strIncludes g term
  if !matchesInclude then false else
  !(q.excludeKeys.any fun term => genreKeys.any fun g => strIncludes g term)

/-- `filteredSongs` of `useGenreFilter`: an empty (falsy) search string
short-circuits to the whole list; otherwise filter by the parsed query. -/
def filteredSongs {α : Type} (selectedGenre : String) (songs : List (SongT α)) :
    List (SongT α) :=
  if selectedGenre = "" then songs
  else songs.filter fun song => songMatches (parseGenreQuery selectedGenre) song.genres

/-! ## Merge step of the enrichment pipeline (`useSpotify.ts` line 262, `App.tsx` `songsForUi`)

`Array.from(new Set([...spotifyGenres, ...lastfmGenres]))`: a JS `Set`
iterates in insertion order, so the merge keeps the first occurrence of
each *exact* string. -/

/-- First-occurrence de-duplication by string equality, with an
accumulator for the elements already seen. -/
def dedupGo : List String → List String → List String
  | _, [] => []
  | seen, x :: xs =>
    if x ∈ seen then dedupGo seen xs else x :: dedupGo (x :: seen) xs

/-- `Array.from(new Set(l))`. -/
def jsSetDedup (l : List String) : List String := dedupGo [] l

/-- The `merged` genre list of an enriched song. -/
def mergedGenres (spotifyGenres lastfmGenres : List String) : List String :=
  jsSetDedup (spotifyGenres ++ lastfmGenres)

/-- Occurrence test for the alias pattern `randb`, used to reason about
the replacement in `toGenreSearchKey`. -/
def hasRandb : List Char → Bool
  | [] => false
  | c :: cs => rdbPat.isPrefixOf (c :: cs) || hasRandb cs

/-! ## `spotify.ts`: `getMultipleArtists`

The oracle `fetch chunk depth` gives the outcome of the HTTP call for a
50-id chunk at retry depth `depth` (depth 0 is the first attempt made by
the chunk loop; each 429 triggers a recursive `getMultipleArtists(chunk)`
call whose own attempt is the next depth).  `ok` carries the decoded
`data.artists` array as `(id, genres)` pairs (a missing `genres` field
already absorbed into `[]`); `err` is any other non-success status. -/

inductive ArtistsResp where
  | ok (artists : List (String × List String))
  | rateLimited
  | err

/-- The result object `genreMap`, as a finite partial map. -/
abbrev GenreMap : Type := String → Option (List String)

def emptyGenreMap : GenreMap := fun _ => none

/-- `data.artists.forEach(artist => genreMap[artist.id] = artist.genres || [])`. -/
def insArtists (m : GenreMap) (arts : List (String × List String)) : GenreMap :=
  arts.foldl (fun acc p => fun k => if k = p.1 then some p.2 else acc k) m

/-- `Object.assign(genreMap, retryData)`: keys of `retryData` win. -/
def assignMap (m retryData : GenreMap) : GenreMap := fun k =>
  match retryData k with
  | some v => some v
  | none => m k

/-- The chunking loop `for (let i = 0; i < ids.length; i += 50)`.
Fuel = list length (each chunk consumes at least one element). -/
def chunks50Go : Nat → List String → List (List String)
  | 0, _ => []
  | _, [] => []
  | fuel + 1, c :: cs =>
    (c :: cs).take 50 :: chunks50Go fuel ((c :: cs).drop 50)

def chunks50 (l : List String) : List (List String) := chunks50Go l.length l

/-- The recursive rate-limit retry `getMultipleArtists(accessToken, chunk)`
for a single chunk (a chunk produced by `chunks50` is non-empty and at
most 50 ids, so the recursive call re-chunks it to itself).  Each level
fetches at the next depth; `err` or exhausted fuel yields the empty map,
matching the skip/catch paths of the source. -/
def retryChunk (fetch : List String → Nat → ArtistsResp) :
    Nat → Nat → List String → GenreMap
  | 0, _, _ => emptyGenreMap
  | fuel + 1, depth, c =>
    match fetch c depth with
    | .ok arts => insArtists emptyGenreMap arts
    | .rateLimited => retryChunk fetch fuel (depth + 1) c
    | .err => emptyGenreMap

/-- The `for (const chunk of chunks)` loop of `getMultipleArtists`:
success writes the returned artists into the shared map, a 429 merges the
recursive retry's map via `Object.assign`, any other failure skips the
chunk. -/
def getMultipleArtistsGo (fetch : List String → Nat → ArtistsResp) (fuel : Nat) :
    List (List String) → GenreMap → GenreMap
  | [], m => m
  | c :: cs, m =>
    match fetch c 0 with
    | .ok arts => getMultipleArtistsGo fetch fuel cs (insArtists m arts)
    | .rateLimited =>
      getMultipleArtistsGo fetch fuel cs (assignMap m (retryChunk fetch fuel 1 c))
    | .err => getMultipleArtistsGo fetch fuel cs m

/-- `getMultipleArtists`: chunk the id list and run the loop (an empty id
list short-circuits to the empty map, which coincides with running the
loop on no chunks). -/
def getMultipleArtists (fetch : List String → Nat → ArtistsResp) (fuel : Nat)
    (artistIds : List String) : GenreMap :=
  getMultipleArtistsGo fetch fuel (chunks50 artistIds) emptyGenreMap

/-- A chunk's fetch eventually succeeds after finitely many rate-limits,
and the successful response lists every requested id. -/
def chunkResolves (fetch : List String → Nat → ArtistsResp) (fuel : Nat)
    (c : List String) : Prop :=
  ∃ d arts, d < fuel ∧ (∀ e, e < d → fetch c e = .rateLimited) ∧
    fetch c d = .ok arts ∧ ∀ a ∈ c, a ∈ arts.map Prod.fst

/-! ## `useSpotify.fetchAllLikedSongs`: the pagination loop

The oracle `page offset attempt` abstracts `getLikedSongs(token, offset, 50)`:
`ok items hasNext` is a parsed page (`hasNext` = `response.next !== null`),
`rateLimited` is the thrown `RATE_LIMITED:n` error (the loop sleeps and
retries the same offset), `err` any other thrown error (fatal).  The
`attempt` index counts the retries at a fixed offset.  The loop returns
the accumulated items plus a log of every `(offset, attempt)` call made,
or `none` on a fatal error (fuel only bounds the modelled run length). -/

inductive PageResp (I : Type) where
  | ok (items : List I) (hasNext : Bool)
  | rateLimited
  | err

def fetchLoop {I : Type} (page : Nat → Nat → PageResp I) :
    Nat → Nat → Nat → List I → List (Nat × Nat) →
    Option (List I × List (Nat × Nat))
  | 0, _, _, _, _ => none
  | fuel + 1, off, att, acc, log =>
    match page off att with
    | .rateLimited => fetchLoop page fuel off (att + 1) acc (log ++ [(off, att)])
    | .err => none
    | .ok items hasNext =>
      if hasNext then
        fetchLoop page fuel (off + 50) 0 (acc ++ items) (log ++ [(off, att)])
      else some (acc ++ items, log ++ [(off, att)])

/-- `fetchAllLikedSongs`' fetch phase: start at offset 0. -/
def fetchAllLikedSongs {I : Type} (page : Nat → Nat → PageResp I) (fuel : Nat) :
    Option (List I × List (Nat × Nat)) :=
  fetchLoop page fuel 0 0 [] []

/-- Fuel for pages `s, s+1, ..., s+n` when page `s+t` needs `d (s+t)`
retries before succeeding. -/
def pageFuel (d : Nat → Nat) (s n : Nat) : Nat :=
  ((List.range (n + 1)).map fun t => d (s + t) + 1).sum

/-! ## `lastfm.ts`: `mapWithConcurrency`

`mapWithConcurrency` pre-sizes a result array, shares a `nextIndex`
counter among `max(1, N)` workers, and lets each worker repeatedly claim
`idx = nextIndex++` (a synchronous, hence atomic, step) and then
asynchronously compute `results[idx] = await fn(items[idx], idx)`.  The
interleaving of workers is modelled as a small-step transition relation;
a scheduler picks which worker moves.  `log` records the claimed indices
in claim order. -/

inductive WState where
  | idle
  | run (idx : Nat)
  | done
deriving DecidableEq, Repr

structure MapState (R : Type) where
  next : Nat
  res : List (Option R)
  ws : List WState
  log : List Nat

/-- One scheduler step of `mapWithConcurrency`:
`claim` = an idle worker executes `idx = nextIndex++` with `idx` in range
and starts `fn(items[idx], idx)`;
`claimEnd` = an idle worker executes `idx = nextIndex++`, sees
`idx >= items.length` and returns;
`finish` = a running worker's invocation completes and writes its slot. -/
inductive MapStep {T R : Type} (items : List T) (f : T → Nat → R) :
    MapState R → MapState R → Prop where
  | claim (s : MapState R) (k : Nat) (hk : s.ws.get? k = some .idle)
      (hlt : s.next < items.length) :
      MapStep items f s
        ⟨s.next + 1, s.res, s.ws.set k (.run s.next), s.log ++ [s.next]⟩
  | claimEnd (s : MapState R) (k : Nat) (hk : s.ws.get? k = some .idle)
      (hge : items.length ≤ s.next) :
      MapStep items f s ⟨s.next + 1, s.res, s.ws.set k .done, s.log⟩
  | finish (s : MapState R) (k idx : Nat) (a : T)
      (hk : s.ws.get? k = some (.run idx)) (ha : items.get? idx = some a) :
      MapStep items f s
        ⟨s.next, s.res.set idx (some (f a idx)), s.ws.set k .idle, s.log⟩

/-- Initial state: empty result slots, `max(1, N)` idle workers. -/
def mapInit (R : Type) {T : Type} (items : List T) (N : Nat) : MapState R :=
  ⟨0, List.replicate items.length none, List.replicate (max 1 N) .idle, []⟩

/-- All states a run of `mapWithConcurrency items N f` can reach. -/
def mapWithConcurrencyRun {T R : Type} (items : List T) (f : T → Nat → R)
    (N : Nat) (s : MapState R) : Prop :=
  Relation.ReflTransGen (MapStep items f) (mapInit R items N) s

/-- `await Promise.all(workers)` has resolved: every worker returned. -/
def TerminalMap {R : Type} (s : MapState R) : Prop := ∀ w ∈ s.ws, w = WState.done

/-- Number of `fn` invocations currently in flight. -/
def inFlight {R : Type} (s : MapState R) : Nat :=
  (s.ws.filter fun w => match w with | WState.run _ => true | _ => false).length

/-- The result array the claim predicts: slot `i` holds `f items[i] i`. -/
def expectedRes {T R : Type} (f : T → Nat → R) : List T → Nat → List (Option R)
  | [], _ => []
  | a :: rest, i => some (f a i) :: expectedRes f rest (i + 1)

/-! ## The cache write discipline (`spotify.ts` `cachedFetch`,
`lastfm.ts` `cachedJsonFetch`)

`HttpResp` is a network response: status, decoded JSON body (`none` for a
body that fails to parse — for `cachedFetch` a parse failure merely skips
the write, which only removes writes), headers.  Both wrappers return the
served value together with the list of responses whose data they wrote to
the cache. -/

structure HttpResp where
  status : Nat
  body : Option String
  headers : List (String × String)
deriving DecidableEq, Repr

/-- `Response.ok`: status in the 2xx range. -/
def respOk (r : HttpResp) : Bool := 200 ≤ r.status && r.status ≤ 299

structure CacheEntry where
  response : Option String
  headers : List (String × String)
deriving DecidableEq, Repr

/-- `cachedFetch` of `spotify.ts`: a cache hit is served as a synthetic
200 response and performs no write (a cache read error just falls through
to the miss path); on a miss the network response is returned and written
back only when `response.ok`. -/
def cachedFetch (cached : Option CacheEntry) (net : HttpResp) :
    HttpResp × List HttpResp :=
  match cached with
  | some e => ({ status := 200, body := e.response, headers := e.headers }, [])
  | none => (net, if respOk net then [net] else [])

/-- `cachedJsonFetch` of `lastfm.ts`: a hit returns the stored JSON; a
429 sleeps and re-enters the whole function (served the next response of
the trace, the cache still holding nothing for this key); otherwise the
parsed body is returned and written back only when `res.ok`.  An
exhausted trace stands for a run cut off before completion. -/
def cachedJsonFetch (cached : Option (Option String)) :
    List HttpResp → Option String × List HttpResp
  | [] => (none, [])
  | r :: rest =>
    match cached with
    | some v => (v, [])
    | none =>
      if r.status = 429 then cachedJsonFetch none rest
      else (r.body, if respOk r then [r] else [])

/-! ## `lastfm.ts`: tag normalization, junk filter, title cleaning,
`getLastfmTrackTags` -/

/-- `tag.trim().toLowerCase()`. -/
def normalizeTag (tag : String) : String :=
  String.mk ((trimWs tag.toList).map jsToLower)

/-- `\d+` (one or more ASCII digits and nothing else). -/
def isAllDigits (l : List Char) : Bool := !l.isEmpty && l.all Char.isDigit

/-- `^-?\d+$`. -/
def signedDigits (l : List Char) : Bool :=
  match l with
  | '-' :: rest => isAllDigits rest
  | _ => isAllDigits l

/-- `^\d+\s*-\s*\d+$`. -/
def rangeTok (l : List Char) : Bool :=
  let d1 := l.takeWhile Char.isDigit
  let r1 := l.dropWhile Char.isDigit
  !d1.isEmpty &&
    match r1.dropWhile jsSp with
    | '-' :: r3 =>
      let r4 := r3.dropWhile jsSp
      (!(r4.takeWhile Char.isDigit).isEmpty && (r4.dropWhile Char.isDigit).isEmpty)
    | _ => false

/-- `(?:-\d+)+` (at least one `-digits` group, ending the string).
Fuel = list length. -/
def dashGroupsGo : Nat → List Char → Bool
  | 0, _ => false
  | fuel + 1, l =>
    match l with
    | '-' :: r =>
      (!(r.takeWhile Char.isDigit).isEmpty &&
        ((r.dropWhile Char.isDigit).isEmpty || dashGroupsGo fuel (r.dropWhile Char.isDigit)))
    | _ => false

/-- `^-?\d+(?:-\d+)+$`. -/
def multiRangeTok (l : List Char) : Bool :=
  let l1 := match l with | '-' :: r => r | _ => l
  let r1 := l1.dropWhile Char.isDigit
  !(l1.takeWhile Char.isDigit).isEmpty && dashGroupsGo r1.length r1

/-- `isJunkTag` of `lastfm.ts`. -/
def isJunkTag (tag : String) : Bool :=
  let t := normalizeTag tag
  let l := t.toList
  if t = "" then true
  else if t = "seen live" || t = "favorites" || t = "favourites" ||
      t = "favorite" || t = "favourite" then true
  else if t = "spotify" then true
  else if isAllDigits l ∧ l.length = 4 then true
  else if l.getLast? = some 's' ∧ isAllDigits l.dropLast ∧
      2 ≤ l.dropLast.length ∧ l.dropLast.length ≤ 4 then true
  else if signedDigits l then true
  else if l.getLast? = some 's' ∧ signedDigits l.dropLast then true
  else if rangeTok l then true
  else if multiRangeTok l then true
  else false

/-- The `" - "` separator of `cleanTrackTitle`. -/
def dashSep : List Char := [' ', '-', ' ']

/-- `t.split(" - ")` (leftmost, non-overlapping).  Fuel = list length. -/
def splitDashGo : Nat → List Char → List (List Char)
  | 0, l => [l]
  | _, [] => [[]]
  | fuel + 1, c :: cs =>
    if dashSep.isPrefixOf (c :: cs) then [] :: splitDashGo fuel (cs.drop 2)
    else
      match splitDashGo fuel cs with
      | h :: t => (c :: h) :: t
      | [] => [[c]]

def splitDash (l : List Char) : List (List Char) := splitDashGo l.length l

/-- Containment test for a regex alternation without anchors:
`/(k1|k2|...)/.test(l)` iff some alternative occurs in `l`. -/
def hasAnyKeyword (ks : List (List Char)) (l : List Char) : Bool :=
  ks.any fun k => containsSub k l

/-- Version-marker vocabulary of the dash-tail test
`/(remaster|live|radio edit|edit|version|mono|stereo|deluxe|explicit)/i`. -/
def dashTailKeywords : List (List Char) :=
  ["remaster", "live", "radio edit", "edit", "version", "mono", "stereo",
    "deluxe", "explicit"].map String.toList

/-- Alternatives of the bracketed-segment regex
`(feat\.?|ft\.?|featuring|remaster|live|radio edit|edit|version|mono|stereo|deluxe)`
(for a containment test the dotted and dotless feat variants are listed
explicitly). -/
def bracketKeywords : List (List Char) :=
  ["feat.", "feat", "ft.", "ft", "featuring", "remaster", "live",
    "radio edit", "edit", "version", "mono", "stereo", "deluxe"].map String.toList

/-- Characters `[^)\]]` allowed inside a bracketed segment. -/
def notCloseB (c : Char) : Bool := !(c = ')' || c = ']')

/-- Try to match `\s*[\(\[][^)\]]*(kw)[^)\]]*[\)\]]\s*` at the head of
`l`; on success return what follows the match. -/
def tryBracketMatch (l : List Char) : Option (List Char) :=
  match l.dropWhile jsSp with
  | [] => none
  | b :: rest =>
    if b = '(' || b = '[' then
      match rest.dropWhile notCloseB with
      | [] => none
      | _ :: rest2 =>
        if hasAnyKeyword bracketKeywords ((rest.takeWhile notCloseB).map jsToLower) then
          some (rest2.dropWhile jsSp)
        else none
    else none

/-- The global replacement of matched bracketed segments by `" "`
(leftmost, non-overlapping).  Fuel = list length. -/
def stripBracketsGo : Nat → List Char → List Char
  | 0, l => l
  | _, [] => []
  | fuel + 1, c :: cs =>
    match tryBracketMatch (c :: cs) with
    | some rest => ' ' :: stripBracketsGo fuel rest
    | none => c :: stripBracketsGo fuel cs

/-- Alternatives of `(feat\.?|ft\.?|featuring)` for the inline feat
marker, dotted variants listed explicitly. -/
def featAlts : List (List Char) :=
  ["feat.", "feat", "ft.", "ft", "featuring"].map String.toList

/-- Does `/\s+(feat\.?|ft\.?|featuring)\s+.+$/i` match at the head of
`l`?  (`.` of the source regex does not match line terminators; track
titles are single-line.) -/
def featMatchAt (l : List Char) : Bool :=
  let r := l.dropWhile jsSp
  !(l.takeWhile jsSp).isEmpty &&
    (featAlts.any fun a =>
      a.isPrefixOf (r.map jsToLower) &&
        (match r.drop a.length with
         | d :: _ => jsSp d && !((r.drop a.length).dropWhile jsSp).isEmpty
         | [] => false))

/-- `t.replace(/\s+(feat\.?|ft\.?|featuring)\s+.+$/i, " ")`: the matched
region extends to the end of the string, so the replacement keeps the
unmatched head and appends one space.  Fuel = list length. -/
def stripFeatTailGo : Nat → List Char → List Char
  | 0, l => l
  | _, [] => []
  | fuel + 1, c :: cs =>
    if jsSp c && featMatchAt (c :: cs) then [' ']
    else c :: stripFeatTailGo fuel cs

/-- `t.replace(/\s{2,}/g, " ")`: only whitespace runs of length at least
two become a single space; a lone whitespace char stays.  Fuel = list
length. -/
def collapseWs2Go : Nat → List Char → List Char
  | 0, l => l
  | _, [] => []
  | fuel + 1, c :: cs =>
    if jsSp c then
      match cs with
      | d :: _ =>
        if jsSp d then ' ' :: collapseWs2Go fuel (cs.dropWhile jsSp)
        else c :: collapseWs2Go fuel cs
      | [] => [c]
    else c :: collapseWs2Go fuel cs

/-- `cleanTrackTitle` of `lastfm.ts`. -/
def cleanTrackTitle (trackName : String) : String :=
  let t := trimWs trackName.toList
  if t.isEmpty then String.mk t else
  let t :=
    match splitDash t with
    | head :: rest :: more =>
      if hasAnyKeyword dashTailKeywords
          ((List.intercalate dashSep (rest :: more)).map jsToLower) then
        trimWs head
      else t
    | _ => t
  let t := stripBracketsGo t.length t
  let t := stripFeatTailGo t.length t
  let t := trimWs (collapseWs2Go t.length t)
  String.mk t

/-! ## `lastfm.ts`: `getLastfmTrackTags`

The oracle fields of `LfmEnv` give, per query, the raw tag-name list
decoded from the Last.fm response (`data.toptags.tag`, a single object
already wrapped into a one-element list, a non-string `name` already
mapped to `""`); the `data.error`/malformed-response paths are the oracle
answering `[]`, which the fetchers also map to `[]`. -/

structure LfmEnv where
  apiKey : Option String
  trackTagsRaw : String → String → List String
  artistTagsRaw : String → List String

inductive LfmQuery where
  | track (artistName trackName : String)
  | artist (artistName : String)
deriving DecidableEq, Repr

/-- The shared tail of both fetchers:
`.map(normalizeTag).filter(t => t && !isJunkTag(t))`. -/
def tagsFromRaw (raw : List String) : List String :=
  (raw.map normalizeTag).filter fun t => t ≠ "" && !isJunkTag t

def fetchLastfmTrackTopTags (env : LfmEnv) (artistName trackName : String) :
    List String :=
  tagsFromRaw (env.trackTagsRaw artistName trackName)

def fetchLastfmArtistTopTags (env : LfmEnv) (artistName : String) : List String :=
  tagsFromRaw (env.artistTagsRaw artistName)

/-- The `for (const c of candidates)` loop: run each query in order until
one yields a non-empty tag list; also report the queries performed. -/
def runCandidates (env : LfmEnv) : List LfmQuery → List String × List LfmQuery
  | [] => ([], [])
  | c :: cs =>
    let tags :=
      match c with
      | .track a t => fetchLastfmTrackTopTags env a t
      | .artist a => fetchLastfmArtistTopTags env a
    if tags.isEmpty then
      let rec' := runCandidates env cs
      (rec'.1, c :: rec'.2)
    else (tags, [c])

/-- The final dedupe loop of `getLastfmTrackTags`: push unseen tags in
order, and break once `unique.length >= limit` *after* processing the
current tag. -/
def dedupeLimitGo (limit : Nat) : List String → List String → List String → List String
  | _, unique, [] => unique
  | seen, unique, n :: ns =>
    let nxt := if n ∈ seen then (seen, unique) else (n :: seen, unique ++ [n])
    if limit ≤ nxt.2.length then nxt.2 else dedupeLimitGo limit nxt.1 nxt.2 ns

/-- JavaScript truthiness of the optional API key: absent or empty. -/
def jsFalsyStr : Option String → Bool
  | none => true
  | some s => s = ""

/-- `getLastfmTrackTags` of `lastfm.ts`; returns the tag list and the
list of Last.fm lookups performed. -/
def getLastfmTrackTags (env : LfmEnv) (artistName trackName : String)
    (optLimit : Option Nat) : List String × List LfmQuery :=
  let limit := optLimit.getD 5
  if jsFalsyStr env.apiKey then ([], [])
  else if (trimWs artistName.toList).isEmpty || (trimWs trackName.toList).isEmpty then
    ([], [])
  else
    let cleanedTrack := cleanTrackTitle trackName
    let candidates :=
      [LfmQuery.track artistName trackName] ++
      (if cleanedTrack.toList ≠ [] &&
          cleanedTrack.toList.map jsToLower ≠ (trimWs trackName.toList).map jsToLower
       then [LfmQuery.track artistName cleanedTrack] else []) ++
      [LfmQuery.artist artistName]
    let out := runCandidates env candidates
    (dedupeLimitGo limit [] [] out.1, out.2)

/-! # Theorems -/

/-! ## Lemmas about the merge de-duplication -/

theorem mem_dedupGo (x : String) : ∀ (l seen : List String),
    x ∈ dedupGo seen l ↔ x ∈ l ∧ x ∉ seen := by
  intro l
  induction l with
  | nil => intro seen; simp [dedupGo]
  | cons y ys ih =>
    intro seen
    by_cases hy : y ∈ seen
    · rcases eq_or_ne x y with rfl | hxy
      · simp [dedupGo, hy, ih, hy]
      · simp [dedupGo, hy, ih, hxy]
    · rcases eq_or_ne x y with rfl | hxy
      · simp [dedupGo, hy, ih]
      · simp [dedupGo, hy, ih, hxy]

theorem nodup_dedupGo : ∀ (l seen : List String), (dedupGo seen l).Nodup := by
  intro l
  induction l with
  | nil => intro seen; simp [dedupGo]
  | cons y ys ih =>
    intro seen
    by_cases hy : y ∈ seen
    · simpa [dedupGo, hy] using ih seen
    · rw [dedupGo, if_neg hy]
      refine List.nodup_cons.mpr ⟨fun hmem => ?_, ih _⟩
      exact ((mem_dedupGo y ys (y :: seen)).mp hmem).2 (List.mem_cons_self y seen)

theorem sublist_dedupGo : ∀ (l seen : List String), List.Sublist (dedupGo seen l) l := by
  intro l
  induction l with
  | nil => intro seen; simp [dedupGo]
  | cons y ys ih =>
    intro seen
    by_cases hy : y ∈ seen
    · rw [dedupGo, if_pos hy]
      exact (ih seen).cons y
    · rw [dedupGo, if_neg hy]
      exact (ih (y :: seen)).cons₂ y

/-- C2, counterexample: the merge de-duplicates by *exact* string
equality, not by normalized search key.  With Spotify genre `"Hip Hop"`
and Last.fm tag `"hip hop"` (Last.fm tags arrive lower-cased), the merged
list keeps two distinct labels whose search keys coincide, contradicting
the claimed no-two-labels-with-equal-keys property. -/
theorem mergedGenres_cex :
    mergedGenres ["Hip Hop"] ["hip hop"] = ["Hip Hop", "hip hop"] ∧
    toGenreSearchKey "Hip Hop" = toGenreSearchKey "hip hop" ∧
    ("Hip Hop" : String) ≠ "hip hop" := by decide

/-- C2, amended: for every enriched song the merged genre list is the
union of the Spotify-source and Last.fm-source genres de-duplicated by
exact string equality, keeping the first occurrence (Spotify first) of
each label; it contains no duplicate strings and preserves the source
order, but labels that differ only by case or punctuation both remain. -/
theorem mergedGenres_spec (spotifyGenres lastfmGenres : List String) :
    (∀ g, g ∈ mergedGenres spotifyGenres lastfmGenres ↔
        g ∈ spotifyGenres ∨ g ∈ lastfmGenres) ∧
    (mergedGenres spotifyGenres lastfmGenres).Nodup ∧
    List.Sublist (mergedGenres spotifyGenres lastfmGenres)
      (spotifyGenres ++ lastfmGenres) := by
  refine ⟨fun g => ?_, nodup_dedupGo _ _, sublist_dedupGo _ _⟩
  rw [mergedGenres, jsSetDedup, mem_dedupGo]
  simp

/-- C4, counterexample: a whitespace-only search input is truthy in
JavaScript, so `filteredSongs` does not short-circuit; it parses to an
empty query, and the filter then drops every song whose genre list is
empty, so the result differs from the input list. -/
theorem filteredSongs_emptyQuery_cex :
    parseGenreQuery " " = ⟨[], []⟩ ∧
    filteredSongs " " [(⟨(), []⟩ : SongT Unit)] ≠ [(⟨(), []⟩ : SongT Unit)] := by
  decide

/-- C4, amended: an empty-string input returns the song list unchanged;
an input that is non-empty but parses to no include and no exclude terms
(whitespace-only or separator-only) keeps exactly the songs with a
non-empty genre list and drops songs whose genre list is empty. -/
theorem filteredSongs_emptyQuery {α : Type} (songs : List (SongT α)) (s : String)
    (h : parseGenreQuery s = ⟨[], []⟩) :
    filteredSongs "" songs = songs ∧
    (s ≠ "" →
      filteredSongs s songs = songs.filter fun song => !song.genres.isEmpty) := by
  constructor
  · simp [filteredSongs]
  · intro hs
    rw [filteredSongs, if_neg hs]
    apply List.filter_congr
    intro song _
    rw [h]
    by_cases hg : song.genres.isEmpty <;> simp [songMatches, hg]

/-- Witness for `filteredSongs_emptyQuery` at the whitespace input `" "`
and a two-song list with one empty-genre song. -/
theorem filteredSongs_emptyQuery_witness :
    filteredSongs "" [(⟨(), ["rock"]⟩ : SongT Unit), ⟨(), []⟩] =
      [(⟨(), ["rock"]⟩ : SongT Unit), ⟨(), []⟩] ∧
    (" " ≠ "" →
      filteredSongs " " [(⟨(), ["rock"]⟩ : SongT Unit), ⟨(), []⟩] =
        [(⟨(), ["rock"]⟩ : SongT Unit), ⟨(), []⟩].filter
          fun song => !song.genres.isEmpty) :=
  filteredSongs_emptyQuery _ " " (by decide)

/-! ## Exclusion dominance -/

theorem parse_exclude_ne_empty : ∀ (ts inc exc : List String),
    (∀ x ∈ exc, x ≠ "") → ∀ e ∈ (parseGenreQueryGo ts inc exc).excludeKeys, e ≠ "" := by
  intro ts
  induction ts with
  | nil => intro inc exc h; simpa [parseGenreQueryGo] using h
  | cons t ts ih =>
    intro inc exc h
    simp only [parseGenreQueryGo]
    split_ifs with h1 h2 h3 h4 h5 <;>
      first
      | exact ih inc exc h
      | exact ih (inc ++ [_]) exc h
      | (refine ih inc (exc ++ [_]) fun x hx => ?_
         rcases List.mem_append.mp hx with hx | hx
         · exact h x hx
         · simp only [List.mem_singleton] at hx
           subst hx
           assumption)

/-- C5 (confirmed): for every song and parsed query, if some exclude key
occurs as a substring of one of the song's normalized genre keys, the
song is absent from `filteredSongs`, whatever the include terms say. -/
theorem filteredSongs_exclude_wins {α : Type} (sel : String)
    (songs : List (SongT α)) (song : SongT α)
    (hex : ∃ e ∈ (parseGenreQuery sel).excludeKeys, ∃ g ∈ song.genres,
        strIncludes (toGenreSearchKey g) e = true) :
    song ∉ filteredSongs sel songs := by
  obtain ⟨e, he, g, hg, hstr⟩ := hex
  have hene : e ≠ "" := parse_exclude_ne_empty _ _ _ (by simp) e he
  by_cases hsel : sel = ""
  · subst hsel
    have hq : parseGenreQuery "" = ⟨[], []⟩ := by decide
    rw [hq] at he
    simp at he
  · rw [filteredSongs, if_neg hsel]
    intro hmem
    have hp := (List.mem_filter.mp hmem).2
    have hkg : toGenreSearchKey g ≠ "" := by
      intro h0
      rw [h0] at hstr
      have h1 : e.toList.isEmpty = true := by
        simpa [strIncludes, containsSub] using hstr
      apply hene
      cases e with
      | mk data =>
        simp only [String.toList] at h1
        simp only [List.isEmpty_iff] at h1
        simp [h1]
    have hmemk : toGenreSearchKey g ∈
        ((song.genres.map toGenreSearchKey).filter (· ≠ "")) :=
      List.mem_filter.mpr ⟨List.mem_map_of_mem _ hg, by simp [hkg]⟩
    have hany : ((parseGenreQuery sel).excludeKeys.any fun term =>
        ((song.genres.map toGenreSearchKey).filter (· ≠ "")).any fun gk =>
          strIncludes gk term) = true :=
      List.any_eq_true.mpr ⟨e, he,
        List.any_eq_true.mpr ⟨toGenreSearchKey g, hmemk, hstr⟩⟩
    simp only [songMatches] at hp
    split at hp
    · simp at hp
    · split at hp
      · simp at hp
      · rw [hany] at hp
        simp at hp

/-- Witness for `filteredSongs_exclude_wins`: the query `"-rock"` removes
a song whose genre `"Rock Music"` normalizes to a key containing `rock`. -/
theorem filteredSongs_exclude_wins_witness :
    (⟨(), ["Rock Music"]⟩ : SongT Unit) ∉
      filteredSongs "-rock" [(⟨(), ["Rock Music"]⟩ : SongT Unit)] :=
  filteredSongs_exclude_wins "-rock" _ _
    ⟨"rock", by decide, "Rock Music", by decide, by decide⟩

/-! ## Lemmas about `collapseRandb`, towards idempotence of the search key -/

theorem char_le_toNat {a b : Char} (h : a ≤ b) : a.toNat ≤ b.toNat := by
  rw [Char.le_def] at h
  exact h

/-- The tail of the alias pattern. -/
theorem rdbPat_eq : rdbPat = 'r' :: ['a', 'n', 'd', 'b'] := rfl

theorem rdbPat_decomp : ∀ l : List Char, rdbPat.isPrefixOf l = true →
    l = 'r' :: 'a' :: 'n' :: 'd' :: 'b' :: l.drop 5 := by
  intro l h
  rcases l with _ | ⟨c1, _ | ⟨c2, _ | ⟨c3, _ | ⟨c4, _ | ⟨c5, t⟩⟩⟩⟩⟩ <;>
    simp_all [rdbPat, List.isPrefixOf]
  exact ⟨h.1.symm, h.2.1.symm, h.2.2.1.symm, h.2.2.2.1.symm, h.2.2.2.2.symm⟩

theorem mem_collapseRandbGo : ∀ (fuel : Nat) (l : List Char) (c : Char),
    c ∈ collapseRandbGo fuel l → c ∈ l := by
  intro fuel
  induction fuel with
  | zero => intro l c hc; simpa [collapseRandbGo] using hc
  | succ fuel ih =>
    intro l c hc
    match l with
    | [] => simpa [collapseRandbGo] using hc
    | c0 :: cs =>
      rw [collapseRandbGo] at hc
      by_cases hpre : rdbPat.isPrefixOf (c0 :: cs) = true
      · rw [if_pos hpre] at hc
        have hdec := rdbPat_decomp _ hpre
        have hcs : cs = 'a' :: 'n' :: 'd' :: 'b' :: (c0 :: cs).drop 5 := by
          have := hdec
          injection this with h1 h2
        have hc0 : c0 = 'r' := by
          injection hdec
        rcases List.mem_cons.mp hc with rfl | hc
        · rw [hc0]; exact List.mem_cons_self _ _
        rcases List.mem_cons.mp hc with rfl | hc
        · rw [hcs]; simp
        rcases List.mem_cons.mp hc with rfl | hc
        · rw [hcs]; simp
        · have hdrop : cs.drop 4 = (c0 :: cs).drop 5 := rfl
          have := ih _ _ hc
          rw [hdrop] at this
          exact List.mem_cons_of_mem _ (List.mem_of_mem_drop this)
      · rw [if_neg hpre] at hc
        rcases List.mem_cons.mp hc with rfl | hc
        · exact List.mem_cons_self _ _
        · exact List.mem_cons_of_mem _ (ih _ _ hc)

theorem noR_isPrefixOf_collapseRandbGo :
    ∀ (fuel : Nat) (p l : List Char), (∀ x ∈ p, x ≠ 'r') → l.length ≤ fuel →
      p.isPrefixOf (collapseRandbGo fuel l) = true → p.isPrefixOf l = true := by
  intro fuel
  induction fuel with
  | zero => intro p l _ _ h; simpa [collapseRandbGo] using h
  | succ fuel ih =>
    intro p l hnr hlen h
    match l with
    | [] => simpa [collapseRandbGo] using h
    | c0 :: cs =>
      rw [collapseRandbGo] at h
      by_cases hpre : rdbPat.isPrefixOf (c0 :: cs) = true
      · rw [if_pos hpre] at h
        match p, h with
        | [], _ => rfl
        | x :: p1, h =>
          simp only [List.isPrefixOf, Bool.and_eq_true, beq_iff_eq] at h
          exact absurd h.1 (hnr x (List.mem_cons_self _ _))
      · rw [if_neg hpre] at h
        match p, h with
        | [], _ => rfl
        | x :: p1, h =>
          simp only [List.isPrefixOf, Bool.and_eq_true, beq_iff_eq] at h
          simp only [List.isPrefixOf, Bool.and_eq_true, beq_iff_eq]
          refine ⟨h.1, ?_⟩
          have hlen1 : cs.length ≤ fuel := by
            simpa using Nat.le_of_succ_le_succ (by simpa using hlen)
          exact ih p1 cs (fun x hx => hnr x (List.mem_cons_of_mem _ hx)) hlen1 h.2

theorem hasRandb_collapseRandbGo :
    ∀ (fuel : Nat) (l : List Char), l.length ≤ fuel →
      hasRandb (collapseRandbGo fuel l) = false := by
  intro fuel
  induction fuel with
  | zero =>
    intro l hlen
    have : l = [] := List.eq_nil_of_length_eq_zero (Nat.le_zero.mp hlen)
    subst this
    simp [collapseRandbGo, hasRandb]
  | succ fuel ih =>
    intro l hlen
    match l with
    | [] => simp [collapseRandbGo, hasRandb]
    | c0 :: cs =>
      have hlen1 : cs.length ≤ fuel := Nat.le_of_succ_le_succ (by simpa using hlen)
      rw [collapseRandbGo]
      by_cases hpre : rdbPat.isPrefixOf (c0 :: cs) = true
      · rw [if_pos hpre]
        have hdrop : (cs.drop 4).length ≤ fuel := by
          rw [List.length_drop]
          omega
        have hX := ih (cs.drop 4) hdrop
        simp [hasRandb, rdbPat, List.isPrefixOf, hX]
      · rw [if_neg hpre]
        have hY := ih cs hlen1
        simp only [hasRandb, hY, Bool.or_eq_false_iff, and_true]
        rw [rdbPat_eq]
        simp only [List.isPrefixOf, Bool.and_eq_false_iff]
        by_cases hc0 : ('r' == c0) = true
        · right
          by_cases hand : (['a', 'n', 'd', 'b'].isPrefixOf (collapseRandbGo fuel cs)) = true
          · exfalso
            have : (['a', 'n', 'd', 'b'].isPrefixOf cs) = true :=
              noR_isPrefixOf_collapseRandbGo fuel _ cs (by decide) hlen1 hand
            apply hpre
            rw [rdbPat_eq]
            simp only [List.isPrefixOf, Bool.and_eq_true]
            exact ⟨hc0, this⟩
          · exact Bool.eq_false_iff.mpr hand
        · left
          exact Bool.eq_false_iff.mpr hc0

theorem collapseRandbGo_of_not_hasRandb :
    ∀ (fuel : Nat) (l : List Char), l.length ≤ fuel → hasRandb l = false →
      collapseRandbGo fuel l = l := by
  intro fuel
  induction fuel with
  | zero =>
    intro l hlen _
    simp [collapseRandbGo]
  | succ fuel ih =>
    intro l hlen hnr
    match l with
    | [] => simp [collapseRandbGo]
    | c0 :: cs =>
      rw [hasRandb, Bool.or_eq_false_iff] at hnr
      rw [collapseRandbGo, if_neg (by simp [hnr.1]), ih cs
        (Nat.le_of_succ_le_succ (by simpa using hlen)) hnr.2]

/-! ## Identity of the normalization steps on canonical keys -/

theorem jsToLower_fix (c : Char) (h : isKeyChar c = true) : jsToLower c = c := by
  rw [jsToLower, if_neg]
  simp only [isKeyChar, Bool.or_eq_true, Bool.and_eq_true, decide_eq_true_eq] at h
  intro hAZ
  simp only [Bool.and_eq_true, decide_eq_true_eq] at hAZ
  rcases hAZ with ⟨h3, h4⟩
  have h3n : (65 : Nat) ≤ c.toNat := char_le_toNat h3
  have h4n : c.toNat ≤ (90 : Nat) := char_le_toNat h4
  rcases h with ⟨h1, _⟩ | ⟨_, h2⟩
  · have h1n : (97 : Nat) ≤ c.toNat := char_le_toNat h1
    omega
  · have h2n : c.toNat ≤ (57 : Nat) := char_le_toNat h2
    omega

theorem jsSp_of_keyChar (c : Char) (h : isKeyChar c = true) : jsSp c = false := by
  by_contra hsp
  rw [Bool.not_eq_false] at hsp
  simp only [jsSp, Bool.or_eq_true, decide_eq_true_eq] at hsp
  rcases hsp with ((((rfl | rfl) | rfl) | rfl) | rfl) | rfl <;> simp [isKeyChar] at h

theorem amp_of_keyChar (c : Char) (h : isKeyChar c = true) :
    (c = '&' || c = '+') = false := by
  by_contra hamp
  rw [Bool.not_eq_false] at hamp
  simp only [Bool.or_eq_true, decide_eq_true_eq] at hamp
  rcases hamp with rfl | rfl <;> simp [isKeyChar] at h

theorem map_jsToLower_id (l : List Char) (h : ∀ c ∈ l, isKeyChar c = true) :
    l.map jsToLower = l := by
  conv_rhs => rw [← List.map_id l]
  exact List.map_congr_left fun c hc => jsToLower_fix c (h c hc)

theorem dropWhile_id_of_false {p : Char → Bool} (l : List Char)
    (h : ∀ c ∈ l, p c = false) : l.dropWhile p = l := by
  cases l with
  | nil => rfl
  | cons c cs => rw [List.dropWhile_cons, h c (List.mem_cons_self _ _)]; simp

theorem trimWs_id (l : List Char) (h : ∀ c ∈ l, jsSp c = false) : trimWs l = l := by
  rw [trimWs, dropWhile_id_of_false l h,
    dropWhile_id_of_false l.reverse (fun c hc => h c (List.mem_reverse.mp hc)),
    List.reverse_reverse]

theorem expandAmps_id (l : List Char) (h : ∀ c ∈ l, isKeyChar c = true) :
    expandAmps l = l := by
  induction l with
  | nil => rfl
  | cons c cs ih =>
    rw [expandAmps, List.flatMap_cons, amp_of_keyChar c (h c (List.mem_cons_self _ _))]
    rw [expandAmps] at ih
    rw [ih fun x hx => h x (List.mem_cons_of_mem _ hx)]
    rfl

theorem collapseWsGo_id (fuel : Nat) (l : List Char)
    (h : ∀ c ∈ l, jsSp c = false) : collapseWsGo fuel l = l := by
  induction fuel generalizing l with
  | zero => cases l <;> rfl
  | succ fuel ih =>
    cases l with
    | nil => rfl
    | cons c cs =>
      rw [collapseWsGo, if_neg (by simp [h c (List.mem_cons_self _ _)]),
        ih cs fun x hx => h x (List.mem_cons_of_mem _ hx)]

theorem filter_keyChar_id (l : List Char) (h : ∀ c ∈ l, isKeyChar c = true) :
    l.filter isKeyChar = l :=
  List.filter_eq_self.mpr h

/-- Every character of a produced search key is a lower-case letter or a
digit. -/
theorem toGenreSearchKey_chars (s : String) :
    ∀ c ∈ (toGenreSearchKey s).toList, isKeyChar c = true := by
  rw [toGenreSearchKey]
  by_cases he : (trimWs (s.toList.map jsToLower)).isEmpty
  · rw [if_pos he]; intro c hc; simp at hc
  · rw [if_neg he]
    intro c hc
    simp only [String.toList] at hc
    have hmem := mem_collapseRandbGo _ _ _ hc
    exact List.of_mem_filter hmem

/-- A string made of canonical key characters without the alias pattern
is a fixed point of `toGenreSearchKey`. -/
theorem toGenreSearchKey_fix (l : List Char) (hkc : ∀ c ∈ l, isKeyChar c = true)
    (hnr : hasRandb l = false) : toGenreSearchKey (String.mk l) = String.mk l := by
  have hsp : ∀ c ∈ l, jsSp c = false := fun c hc => jsSp_of_keyChar c (hkc c hc)
  have htl : (String.mk l).toList = l := rfl
  simp only [toGenreSearchKey, htl, map_jsToLower_id l hkc, trimWs_id l hsp]
  cases l with
  | nil => rfl
  | cons c cs =>
    rw [if_neg (by simp)]
    rw [expandAmps_id _ hkc, collapseWs, collapseWsGo_id _ _ hsp, trimWs_id _ hsp,
      filter_keyChar_id _ hkc, collapseRandb,
      collapseRandbGo_of_not_hasRandb _ _ (le_refl _) hnr]

set_option maxHeartbeats 1000000 in
/-- C7 (confirmed): the r&b aliases collapse to the key `rnb`, and
`toGenreSearchKey` is idempotent on every string. -/
theorem toGenreSearchKey_aliases_idem :
    toGenreSearchKey "R&B" = "rnb" ∧ toGenreSearchKey "R and B" = "rnb" ∧
    toGenreSearchKey "r_n_b" = "rnb" ∧
    ∀ s : String, toGenreSearchKey (toGenreSearchKey s) = toGenreSearchKey s := by
  refine ⟨by decide, by decide, by decide, fun s => ?_⟩
  have hkc := toGenreSearchKey_chars s
  have hnr : hasRandb (toGenreSearchKey s).toList = false := by
    rw [toGenreSearchKey]
    by_cases he : (trimWs (s.toList.map jsToLower)).isEmpty
    · rw [if_pos he]; decide
    · rw [if_neg he]
      exact hasRandb_collapseRandbGo _ _ (le_refl _)
  have hfix := toGenreSearchKey_fix (toGenreSearchKey s).toList hkc hnr
  rwa [show String.mk (toGenreSearchKey s).toList = toGenreSearchKey s from rfl] at hfix

/-! ## Lemmas about the batch artist resolver -/

theorem chunks50Go_flatten : ∀ (fuel : Nat) (l : List String), l.length ≤ fuel →
    (chunks50Go fuel l).flatten = l := by
  intro fuel
  induction fuel with
  | zero =>
    intro l hlen
    have : l = [] := List.eq_nil_of_length_eq_zero (Nat.le_zero.mp hlen)
    subst this
    rfl
  | succ fuel ih =>
    intro l hlen
    match l with
    | [] => rfl
    | c :: cs =>
      have hd : ((c :: cs).drop 50).length ≤ fuel := by
        rw [List.length_drop]
        simp only [List.length_cons] at hlen ⊢
        omega
      rw [chunks50Go, List.flatten_cons, ih _ hd, List.take_append_drop]

theorem insArtists_isSome (arts : List (String × List String)) :
    ∀ (m : GenreMap) (k : String),
    ((insArtists m arts k).isSome = true) ↔
      (k ∈ arts.map Prod.fst ∨ (m k).isSome = true) := by
  induction arts with
  | nil => intro m k; simp [insArtists]
  | cons p ps ih =>
    intro m k
    have hstep : insArtists m (p :: ps) =
        insArtists (fun k2 => if k2 = p.1 then some p.2 else m k2) ps := rfl
    rw [hstep, ih]
    by_cases hk : k = p.1
    · simp [hk]
    · have hk2 : ¬(p.1 = k) := fun h => hk h.symm
      simp [hk, hk2]

theorem insArtists_not_mem (arts : List (String × List String)) :
    ∀ (m : GenreMap) (k : String), k ∉ arts.map Prod.fst →
    insArtists m arts k = m k := by
  induction arts with
  | nil => intro m k _; rfl
  | cons p ps ih =>
    intro m k hk
    have hstep : insArtists m (p :: ps) =
        insArtists (fun k2 => if k2 = p.1 then some p.2 else m k2) ps := rfl
    have hk1 : k ≠ p.1 := by
      intro h
      exact hk (by simp [h])
    have hk2 : k ∉ ps.map Prod.fst := fun h => hk (by simp [h])
    rw [hstep, ih _ _ hk2, if_neg hk1]

theorem assignMap_isSome (m r : GenreMap) (k : String) :
    ((assignMap m r k).isSome = true) ↔
      ((r k).isSome = true ∨ (m k).isSome = true) := by
  rcases hr : r k with _ | v <;> simp [assignMap, hr]

theorem retryChunk_eq_ok (fetch : List String → Nat → ArtistsResp) :
    ∀ (fuel i d : Nat) (c : List String) (arts : List (String × List String)),
    i ≤ d → d < i + fuel →
    (∀ e, i ≤ e → e < d → fetch c e = .rateLimited) →
    fetch c d = .ok arts →
    retryChunk fetch fuel i c = insArtists emptyGenreMap arts := by
  intro fuel
  induction fuel with
  | zero => intro i d c arts h1 h2 _ _; omega
  | succ fuel ih =>
    intro i d c arts h1 h2 hrl hok
    rw [retryChunk]
    rcases Nat.eq_or_lt_of_le h1 with rfl | hlt
    · rw [hok]
    · rw [hrl i (le_refl _) hlt]
      exact ih (i + 1) d c arts hlt (by omega)
        (fun e he1 he2 => hrl e (by omega) he2) hok

theorem retryChunk_none (fetch : List String → Nat → ArtistsResp) (k : String)
    (c : List String)
    (habs : ∀ d arts, fetch c d = .ok arts → k ∉ arts.map Prod.fst) :
    ∀ (fuel i : Nat), retryChunk fetch fuel i c k = none := by
  intro fuel
  induction fuel with
  | zero => intro i; rfl
  | succ fuel ih =>
    intro i
    rw [retryChunk]
    rcases hf : fetch c i with arts | _ | _
    · exact insArtists_not_mem _ _ _ (habs i arts hf)
    · exact ih (i + 1)
    · rfl

theorem getMultipleArtistsGo_mono (fetch : List String → Nat → ArtistsResp)
    (fuel : Nat) (k : String) :
    ∀ (cs : List (List String)) (m : GenreMap), (m k).isSome = true →
    ((getMultipleArtistsGo fetch fuel cs m) k).isSome = true := by
  intro cs
  induction cs with
  | nil => intro m hm; exact hm
  | cons c cs ih =>
    intro m hm
    rw [getMultipleArtistsGo]
    rcases hf : fetch c 0 with arts | _ | _
    · exact ih _ ((insArtists_isSome _ _ _).mpr (Or.inr hm))
    · exact ih _ ((assignMap_isSome _ _ _).mpr (Or.inr hm))
    · exact ih _ hm

theorem getMultipleArtistsGo_hit (fetch : List String → Nat → ArtistsResp)
    (fuel : Nat) (k : String) :
    ∀ (cs : List (List String)) (m : GenreMap) (c : List String), c ∈ cs →
    chunkResolves fetch fuel c → k ∈ c →
    ((getMultipleArtistsGo fetch fuel cs m) k).isSome = true := by
  intro cs
  induction cs with
  | nil => intro m c hc; simp at hc
  | cons c0 cs ih =>
    intro m c hc hres hk
    rcases List.mem_cons.mp hc with rfl | hc
    · obtain ⟨d, arts, hd, hrl, hok, hcov⟩ := hres
      have hkarts : k ∈ arts.map Prod.fst := hcov k hk
      rw [getMultipleArtistsGo]
      rcases d with _ | d1
      · rw [hok]
        exact getMultipleArtistsGo_mono fetch fuel k cs _
          ((insArtists_isSome _ _ _).mpr (Or.inl hkarts))
      · rw [hrl 0 (Nat.succ_pos _)]
        have hretry : retryChunk fetch fuel 1 c = insArtists emptyGenreMap arts :=
          retryChunk_eq_ok fetch fuel 1 (d1 + 1) c arts (Nat.succ_le_succ (Nat.zero_le _))
            (by omega) (fun e he1 he2 => hrl e he2) hok
        refine getMultipleArtistsGo_mono fetch fuel k cs _
          ((assignMap_isSome _ _ _).mpr (Or.inl ?_))
        rw [hretry]
        exact (insArtists_isSome _ _ _).mpr (Or.inl hkarts)
    · rw [getMultipleArtistsGo]
      rcases hf : fetch c0 0 with arts | _ | _ <;> exact ih _ c hc hres hk

theorem getMultipleArtistsGo_none (fetch : List String → Nat → ArtistsResp)
    (fuel : Nat) (k : String)
    (habs : ∀ c d arts, fetch c d = .ok arts → k ∉ arts.map Prod.fst) :
    ∀ (cs : List (List String)) (m : GenreMap), m k = none →
    (getMultipleArtistsGo fetch fuel cs m) k = none := by
  intro cs
  induction cs with
  | nil => intro m hm; exact hm
  | cons c cs ih =>
    intro m hm
    rw [getMultipleArtistsGo]
    rcases hf : fetch c 0 with arts | _ | _
    · refine ih _ ?_
      rw [insArtists_not_mem _ _ _ (habs c 0 arts hf), hm]
    · refine ih _ ?_
      rw [assignMap, retryChunk_none fetch k c (fun d => habs c d) fuel 1, hm]
    · exact ih _ hm

/-- C1, counterexample: when a chunk's batch request fails with a
non-success, non-429 status, `getMultipleArtists` skips the chunk without
adding its ids, so an input id can be absent from the returned map
(rather than present with an empty genre list). -/
theorem getMultipleArtists_cex :
    ("a" : String) ∈ ["a"] ∧
    getMultipleArtists (fun _ _ => ArtistsResp.err) 1 ["a"] "a" = none := by
  decide

/-- C1, amended: an input id appears as a key of the returned map
whenever its 50-id chunk eventually succeeds — directly or after finitely
many rate-limit retries — with a response listing that id; conversely an
id never listed by any successful response (in particular one whose
chunks only fail with other non-success statuses) is absent from the map,
and callers default the missing key to an empty genre list. -/
theorem getMultipleArtists_amended (fetch : List String → Nat → ArtistsResp)
    (fuel : Nat) (artistIds : List String) (a : String) :
    (a ∈ artistIds →
      (∀ c ∈ chunks50 artistIds, a ∈ c → chunkResolves fetch fuel c) →
      (getMultipleArtists fetch fuel artistIds a).isSome = true) ∧
    ((∀ c d arts, fetch c d = .ok arts → a ∉ arts.map Prod.fst) →
      getMultipleArtists fetch fuel artistIds a = none) := by
  constructor
  · intro hmem hres
    have hj : a ∈ (chunks50 artistIds).flatten := by
      rw [chunks50, chunks50Go_flatten _ _ (le_refl _)]
      exact hmem
    obtain ⟨c, hc, hac⟩ := List.mem_flatten.mp hj
    exact getMultipleArtistsGo_hit fetch fuel a _ _ c hc (hres c hc hac) hac
  · intro habs
    exact getMultipleArtistsGo_none fetch fuel a habs _ _ rfl

/-- Witness for `getMultipleArtists_amended`: a single chunk that is
rate-limited once and then succeeds yields the id as a key; the same id
is absent under an oracle that only ever fails. -/
theorem getMultipleArtists_amended_witness :
    (getMultipleArtists
      (fun _ d => if d = 0 then ArtistsResp.rateLimited
                  else ArtistsResp.ok [("a", ["pop"])]) 2 ["a"] "a").isSome = true ∧
    getMultipleArtists (fun _ _ => ArtistsResp.err) 2 ["a"] "a" = none := by
  constructor
  · refine (getMultipleArtists_amended _ 2 ["a"] "a").1 (by decide) ?_
    intro c hc hac
    refine ⟨1, [("a", ["pop"])], by omega, ?_, by simp, ?_⟩
    · intro e he
      have he0 : e = 0 := by omega
      simp [he0]
    · have hc1 : c = ["a"] := by
        have : chunks50 ["a"] = [["a"]] := by decide
        rw [this] at hc
        simpa using hc
      subst hc1
      intro x hx
      simp at hx
      simp [hx]
  · exact (getMultipleArtists_amended _ 2 ["a"] "a").2
      (fun c d arts h => by simp at h)

/-! ## Lemmas about the pagination loop -/

theorem fetchLoop_rl {I : Type} (page : Nat → Nat → PageResp I) (off : Nat) :
    ∀ (m att fuelRest : Nat) (acc : List I) (log : List (Nat × Nat)),
    (∀ a, a < m → page off (att + a) = .rateLimited) →
    fetchLoop page (m + fuelRest) off att acc log =
      fetchLoop page fuelRest off (att + m) acc
        (log ++ (List.range m).map fun a => (off, att + a)) := by
  intro m
  induction m with
  | zero => intro att f acc log _; simp
  | succ m ih =>
    intro att f acc log hrl
    have h0 : page off att = .rateLimited := by simpa using hrl 0 (Nat.succ_pos _)
    have hstep : m + 1 + f = (m + f) + 1 := by omega
    rw [hstep]
    simp only [fetchLoop, h0]
    have ihx := ih (att + 1) f acc (log ++ [(off, att)]) fun a ha => by
      have := hrl (a + 1) (by omega)
      rwa [show att + (a + 1) = att + 1 + a by omega] at this
    rw [ihx, show att + 1 + m = att + (m + 1) from by omega]
    congr 1
    rw [List.range_succ_eq_map, List.map_cons, List.map_map, List.append_assoc,
      List.singleton_append]
    simp only [Nat.add_zero]
    congr 2
    apply List.map_congr_left
    intro a _
    simp only [Function.comp_apply]
    congr 1
    omega

theorem flatten_range_shift {β : Type} (g : Nat → List β) (n s : Nat) :
    ((List.range (n + 1 + 1)).map fun t => g (s + t)).flatten =
      g s ++ ((List.range (n + 1)).map fun t => g (s + 1 + t)).flatten := by
  rw [List.range_succ_eq_map, List.map_cons, List.map_map, List.flatten_cons,
    Nat.add_zero]
  congr 2
  apply List.map_congr_left
  intro a _
  simp only [Function.comp_apply]
  congr 1
  omega

theorem pageFuel_succ (d : Nat → Nat) (s n : Nat) :
    pageFuel d s (n + 1) = (d s + 1) + pageFuel d (s + 1) n := by
  rw [pageFuel, pageFuel, List.range_succ_eq_map, List.map_cons, List.map_map,
    List.sum_cons, Nat.add_zero]
  congr 2
  apply List.map_congr_left
  intro a _
  simp only [Function.comp_apply]
  congr 2
  omega

theorem fetchLoop_run {I : Type} (page : Nat → Nat → PageResp I)
    (pages : Nat → List I) (d : Nat → Nat) (K : Nat)
    (hgood : ∀ i, i ≤ K →
      (∀ a, a < d i → page (50 * i) a = .rateLimited) ∧
      page (50 * i) (d i) = .ok (pages i) (decide (i < K))) :
    ∀ (n s : Nat), s + n = K → ∀ (acc : List I) (log : List (Nat × Nat)),
    fetchLoop page (pageFuel d s n) (50 * s) 0 acc log =
      some (acc ++ ((List.range (n + 1)).map fun t => pages (s + t)).flatten,
            log ++ ((List.range (n + 1)).map fun t =>
              (List.range (d (s + t) + 1)).map fun a => (50 * (s + t), a)).flatten) := by
  intro n
  induction n with
  | zero =>
    intro s hsK acc log
    have hsK0 : s = K := by omega
    have hfuel : pageFuel d s 0 = d s + 1 := by
      rw [pageFuel, show List.range (0 + 1) = [0] from rfl]
      simp
    rw [hfuel]
    rw [fetchLoop_rl page (50 * s) (d s) 0 1 acc log
      (fun a ha => by simpa using (hgood s (by omega)).1 a ha)]
    simp only [Nat.zero_add]
    rw [show (1 : Nat) = 0 + 1 from rfl, fetchLoop]
    have hok := (hgood s (by omega)).2
    rw [hok]
    have hlt : decide (s < K) = false := by
      subst hsK0
      simp
    rw [hlt]
    simp only [Bool.false_eq_true, if_false, Nat.zero_add]
    congr 2
    · rw [show List.range 1 = [0] from rfl]
      simp
    · rw [List.append_assoc]
      congr 1
      rw [show List.range 1 = [0] from rfl]
      simp only [List.map_cons, List.map_nil, List.flatten_cons, List.flatten_nil,
        List.append_nil, Nat.add_zero]
      rw [List.range_succ, List.map_append]
      simp
  | succ n ih =>
    intro s hsK acc log
    have hfuel : pageFuel d s (n + 1) = d s + (pageFuel d (s + 1) n + 1) := by
      rw [pageFuel_succ]
      omega
    rw [hfuel]
    rw [fetchLoop_rl page (50 * s) (d s) 0 (pageFuel d (s + 1) n + 1) acc log
      (fun a ha => by simpa using (hgood s (by omega)).1 a ha)]
    simp only [Nat.zero_add]
    rw [fetchLoop]
    have hok := (hgood s (by omega)).2
    rw [hok]
    have hlt : decide (s < K) = true := by simp; omega
    rw [hlt]
    simp only [if_true, Nat.zero_add]
    have h50 : 50 * s + 50 = 50 * (s + 1) := by ring
    rw [h50]
    rw [ih (s + 1) (by omega)]
    congr 2
    · rw [List.append_assoc]
      congr 1
      exact (flatten_range_shift (fun i => pages i) n s).symm
    · rw [List.append_assoc, List.append_assoc]
      congr 1
      rw [← List.append_assoc]
      have := (flatten_range_shift
        (fun i => (List.range (d i + 1)).map fun a => (50 * i, a)) n s).symm
      rw [← this]
      congr 1
      rw [List.range_succ, List.map_append]
      simp

/-- C3 (confirmed): whenever every offset `50*i` (for `i ≤ K`) answers
`d i` rate-limits followed by one successful page whose next-token is
present exactly for `i < K`, the loop returns the concatenation of the
pages in offset order — no item lost or duplicated — and its call log
shows each offset retried at the same position `d i` times and fetched
successfully exactly once, advancing by 50 only after success and
stopping exactly at the page with a null next token (so with no rate
limits, `d = 0`, every offset is fetched exactly once). -/
theorem fetchAllLikedSongs_pagination {I : Type} (page : Nat → Nat → PageResp I)
    (pages : Nat → List I) (d : Nat → Nat) (K : Nat)
    (hgood : ∀ i, i ≤ K →
      (∀ a, a < d i → page (50 * i) a = .rateLimited) ∧
      page (50 * i) (d i) = .ok (pages i) (decide (i < K))) :
    fetchAllLikedSongs page (pageFuel d 0 K) =
      some (((List.range (K + 1)).map fun i => pages i).flatten,
            ((List.range (K + 1)).map fun i =>
              (List.range (d i + 1)).map fun a => (50 * i, a)).flatten) := by
  have h := fetchLoop_run page pages d K hgood K 0 (by omega) [] []
  simp only [Nat.zero_add, Nat.mul_zero, List.nil_append] at h
  rw [fetchAllLikedSongs]
  exact h

/-- Witness for `fetchAllLikedSongs_pagination`: two pages, the first
rate-limited once; the collection is the two pages in order and the log
shows offset 0 fetched twice (attempts 0 and 1) and offset 50 once. -/
theorem fetchAllLikedSongs_pagination_witness :
    fetchAllLikedSongs
      (fun off att => if off = 0 then (if att = 0 then PageResp.rateLimited
        else PageResp.ok [10, 11] true) else PageResp.ok [20] false)
      (pageFuel (fun i => if i = 0 then 1 else 0) 0 1) =
      some ([10, 11, 20], [(0, 0), (0, 1), (50, 0)]) := by
  have h := fetchAllLikedSongs_pagination
    (fun off att => if off = 0 then (if att = 0 then PageResp.rateLimited
      else PageResp.ok [10, 11] true) else PageResp.ok [20] false)
    (fun i => if i = 0 then [10, 11] else [20])
    (fun i => if i = 0 then 1 else 0) 1 ?_
  · rw [h]
    decide
  · intro i hi
    interval_cases i
    · refine ⟨fun a ha => ?_, rfl⟩
      have ha1 : a < 1 := by simpa using ha
      have ha0 : a = 0 := by omega
      subst ha0
      rfl
    · exact ⟨fun a ha => absurd (by simpa using ha : a < 0) (Nat.not_lt_zero a), rfl⟩

/-! ## Invariant proof for `mapWithConcurrency` -/

theorem get?_set_same {α : Type} (l : List α) (k : Nat) (a b : α)
    (h : l.get? k = some b) : (l.set k a).get? k = some a := by
  rw [List.get?_set, if_pos rfl, h]
  rfl

/-- Invariant of the `mapWithConcurrency` state machine: result slots are
pre-sized; the worker pool has fixed size; indices are claimed in order
(the log is an initial segment of the naturals); running workers hold
in-range unfinished indices below the counter; every claimed index is
either already written with `f items[i] i` or held by a running worker;
and a worker can only have returned once the counter passed the end. -/
def MapInv {T R : Type} (items : List T) (f : T → Nat → R) (N : Nat)
    (s : MapState R) : Prop :=
  s.res.length = items.length ∧
  s.ws.length = max 1 N ∧
  s.log = List.range (min s.next items.length) ∧
  (∀ k idx, s.ws.get? k = some (.run idx) → idx < s.next ∧ idx < items.length) ∧
  (∀ i a, items.get? i = some a → i < s.next →
    (s.res.get? i = some (some (f a i)) ∨ ∃ k, s.ws.get? k = some (.run i))) ∧
  ((∃ k, s.ws.get? k = some WState.done) → items.length ≤ s.next)

theorem mapInv_init {T R : Type} (items : List T) (f : T → Nat → R) (N : Nat) :
    MapInv items f N (mapInit R items N) := by
  refine ⟨List.length_replicate _ _, List.length_replicate _ _, by simp [mapInit],
    ?_, ?_, ?_⟩
  · intro k idx hk
    have := List.eq_of_mem_replicate (List.get?_mem hk)
    simp at this
  · intro i a _ hi
    simp [mapInit] at hi
  · rintro ⟨k, hk⟩
    have := List.eq_of_mem_replicate (List.get?_mem hk)
    simp at this

theorem mapInv_step {T R : Type} (items : List T) (f : T → Nat → R) (N : Nat)
    {s s2 : MapState R} (hstep : MapStep items f s s2) (hinv : MapInv items f N s) :
    MapInv items f N s2 := by
  obtain ⟨h1, h2, h3, h4, h5, h6⟩ := hinv
  cases hstep with
  | claim k hk hlt =>
    simp only [MapInv]
    refine ⟨h1, by simpa using h2, ?_, ?_, ?_, ?_⟩
    · have hmin : min s.next items.length = s.next := by omega
      have hmin2 : min (s.next + 1) items.length = s.next + 1 := by omega
      simp only [hmin2, h3, hmin, List.range_succ]
    · intro k2 idx hk2
      by_cases hkk : k = k2
      · subst hkk
        rw [get?_set_same _ _ _ _ hk] at hk2
        have : idx = s.next := by injection hk2 with h7; injection h7 with h8; omega
        omega
      · have := h4 k2 idx (by rwa [List.get?_set_ne _ _ hkk] at hk2)
        omega
    · intro i a ha hi
      by_cases hii : i = s.next
      · subst hii
        exact Or.inr ⟨k, get?_set_same _ _ _ _ hk⟩
      · have hi2 : i < s.next := by omega
        rcases h5 i a ha hi2 with hw | ⟨k2, hk2⟩
        · exact Or.inl hw
        · refine Or.inr ⟨k2, ?_⟩
          have hkk : k ≠ k2 := by
            intro h
            subst h
            rw [hk] at hk2
            simp at hk2
          rwa [List.get?_set_ne _ _ hkk]
    · rintro ⟨k2, hk2⟩
      by_cases hkk : k = k2
      · subst hkk
        rw [get?_set_same _ _ _ _ hk] at hk2
        simp at hk2
      · have := h6 ⟨k2, by rwa [List.get?_set_ne _ _ hkk] at hk2⟩
        omega
  | claimEnd k hk hge =>
    simp only [MapInv]
    refine ⟨h1, by simpa using h2, ?_, ?_, ?_, fun _ => by omega⟩
    · have hmin : min s.next items.length = items.length := by omega
      have hmin2 : min (s.next + 1) items.length = items.length := by omega
      rw [hmin2, h3, hmin]
    · intro k2 idx hk2
      by_cases hkk : k = k2
      · subst hkk
        rw [get?_set_same _ _ _ _ hk] at hk2
        simp at hk2
      · have := h4 k2 idx (by rwa [List.get?_set_ne _ _ hkk] at hk2)
        omega
    · intro i a ha hi
      have hilen : i < items.length := by
        rcases List.get?_eq_some.mp ha with ⟨h, _⟩
        exact h
      have hi2 : i < s.next := by omega
      rcases h5 i a ha hi2 with hw | ⟨k2, hk2⟩
      · exact Or.inl hw
      · refine Or.inr ⟨k2, ?_⟩
        have hkk : k ≠ k2 := by
          intro h
          subst h
          rw [hk] at hk2
          simp at hk2
        rwa [List.get?_set_ne _ _ hkk]
  | finish k idx a hk ha =>
    simp only [MapInv]
    have hidx := h4 k idx hk
    refine ⟨by simpa using h1, by simpa using h2, h3, ?_, ?_, ?_⟩
    · intro k2 idx2 hk2
      by_cases hkk : k = k2
      · subst hkk
        rw [get?_set_same _ _ _ _ hk] at hk2
        simp at hk2
      · exact h4 k2 idx2 (by rwa [List.get?_set_ne _ _ hkk] at hk2)
    · intro i a2 ha2 hi
      by_cases hii : idx = i
      · subst hii
        left
        have haa : a2 = a := by
          rw [ha] at ha2
          injection ha2 with h7
          exact h7.symm
        subst haa
        have hlen : idx < s.res.length := by omega
        rcases hold : s.res.get? idx with _ | old
        · rw [List.get?_eq_none] at hold
          omega
        · exact get?_set_same _ _ _ _ hold
      · have hres : (s.res.set idx (some (f a idx))).get? i = s.res.get? i :=
          List.get?_set_ne _ _ hii
        rcases h5 i a2 ha2 hi with hw | ⟨k2, hk2⟩
        · rw [hres]
          exact Or.inl hw
        · refine Or.inr ⟨k2, ?_⟩
          have hkk : k ≠ k2 := by
            intro h
            subst h
            rw [hk] at hk2
            have : idx = i := by injection hk2 with h7; injection h7
            exact hii this
          rwa [List.get?_set_ne _ _ hkk]
    · rintro ⟨k2, hk2⟩
      by_cases hkk : k = k2
      · subst hkk
        rw [get?_set_same _ _ _ _ hk] at hk2
        simp at hk2
      · exact h6 ⟨k2, by rwa [List.get?_set_ne _ _ hkk] at hk2⟩

theorem mapInv_reachable {T R : Type} (items : List T) (f : T → Nat → R)
    (N : Nat) (s : MapState R) (h : mapWithConcurrencyRun items f N s) :
    MapInv items f N s := by
  induction h with
  | refl => exact mapInv_init items f N
  | tail _ hstep ih => exact mapInv_step items f N hstep ih

theorem expectedRes_length {T R : Type} (f : T → Nat → R) :
    ∀ (l : List T) (j : Nat), (expectedRes f l j).length = l.length := by
  intro l
  induction l with
  | nil => intro j; rfl
  | cons a as ih => intro j; simp [expectedRes, ih]

theorem expectedRes_get? {T R : Type} (f : T → Nat → R) :
    ∀ (l : List T) (j i : Nat),
    (expectedRes f l j).get? i = (l.get? i).map fun a => some (f a (j + i)) := by
  intro l
  induction l with
  | nil => intro j i; simp [expectedRes]
  | cons a as ih =>
    intro j i
    cases i with
    | zero => simp [expectedRes]
    | succ i =>
      have hstep : (expectedRes f (a :: as) j).get? (i + 1) =
          (expectedRes f as (j + 1)).get? i := rfl
      have hstep2 : (a :: as).get? (i + 1) = as.get? i := rfl
      rw [hstep, hstep2, ih (j + 1) i]
      have harith : j + 1 + i = j + (i + 1) := by omega
      simp only [harith]

/-- C6 (confirmed): for every item list, limit `N` and mapping function
`f`, along any interleaving of the workers at most `max 1 N` (= `N` for
`N ≥ 1`) invocations are in flight, and when the run completes the result
array has one slot per input holding exactly `f items[i] i` in input
order — regardless of completion order — with the claim log showing every
index claimed exactly once, in order. -/
theorem mapWithConcurrency_ok {T R : Type} (items : List T) (f : T → Nat → R)
    (N : Nat) (s : MapState R) (hreach : mapWithConcurrencyRun items f N s) :
    inFlight s ≤ max 1 N ∧
    (TerminalMap s →
      s.res = expectedRes f items 0 ∧ s.log = List.range items.length) := by
  obtain ⟨h1, h2, h3, h4, h5, h6⟩ := mapInv_reachable items f N s hreach
  constructor
  · calc inFlight s ≤ s.ws.length := List.length_filter_le _ _
      _ = max 1 N := h2
  · intro hterm
    have hws0 : s.ws.get? 0 = some WState.done := by
      rcases hw : s.ws.get? 0 with _ | w
      · rw [List.get?_eq_none] at hw
        omega
      · rw [← hterm w (List.get?_mem hw)]
    have hnext : items.length ≤ s.next := h6 ⟨0, hws0⟩
    constructor
    · apply List.ext_get?
      intro n
      rw [expectedRes_get? f items 0 n]
      by_cases hn : n < items.length
      · rcases hsome : items.get? n with _ | a
        · rw [List.get?_eq_none] at hsome
          omega
        · rcases h5 n a hsome (by omega) with hw | ⟨k, hk⟩
          · rw [hw]
            simp
          · exfalso
            have := hterm _ (List.get?_mem hk)
            simp at this
      · have hres : s.res.get? n = none := List.get?_eq_none.mpr (by omega)
        have hit : items.get? n = none := List.get?_eq_none.mpr (by omega)
        rw [hres, hit]
        rfl
    · rw [h3]
      congr 1
      omega

/-- Witness for `mapWithConcurrency_ok`: a complete two-item run with two
workers in which the second item finishes before the first; the result is
still in input order and each index was claimed once. -/
theorem mapWithConcurrency_ok_witness :
    ((⟨4, [some 10, some 21], [WState.done, WState.done], [0, 1]⟩ :
        MapState Nat).res = expectedRes (fun a i => a + i) [10, 20] 0) ∧
    ((⟨4, [some 10, some 21], [WState.done, WState.done], [0, 1]⟩ :
        MapState Nat).log = List.range [10, 20].length) := by
  have hreach : mapWithConcurrencyRun [10, 20] (fun a i : Nat => a + i) 2
      (⟨4, [some 10, some 21], [WState.done, WState.done], [0, 1]⟩ :
        MapState Nat) := by
    refine Relation.ReflTransGen.head (MapStep.claim _ 0 rfl (by decide)) ?_
    refine Relation.ReflTransGen.head (MapStep.claim _ 1 rfl (by decide)) ?_
    refine Relation.ReflTransGen.head (MapStep.finish _ 1 1 20 rfl rfl) ?_
    refine Relation.ReflTransGen.head (MapStep.finish _ 0 0 10 rfl rfl) ?_
    refine Relation.ReflTransGen.head (MapStep.claimEnd _ 0 rfl (by decide)) ?_
    refine Relation.ReflTransGen.head (MapStep.claimEnd _ 1 rfl (by decide)) ?_
    exact Relation.ReflTransGen.refl
  exact (mapWithConcurrency_ok [10, 20] (fun a i => a + i) 2 _ hreach).2
    (by simp [TerminalMap])

/-! ## Cache write discipline -/

theorem cachedJsonFetch_writes : ∀ (trace : List HttpResp)
    (cached : Option (Option String)) (w : HttpResp),
    w ∈ (cachedJsonFetch cached trace).2 → respOk w = true ∧ w.status ≠ 429 := by
  intro trace
  induction trace with
  | nil => intro cached w hw; simp [cachedJsonFetch] at hw
  | cons r rest ih =>
    intro cached w hw
    match cached with
    | some v => simp [cachedJsonFetch] at hw
    | none =>
      by_cases h429 : r.status = 429
      · simp only [cachedJsonFetch, h429, if_true] at hw
        exact ih none w hw
      · by_cases hok : respOk r = true
        · simp only [cachedJsonFetch, h429, if_neg, hok, if_true] at hw
          simp at hw
          subst hw
          exact ⟨hok, h429⟩
        · simp only [cachedJsonFetch, h429, hok] at hw
          simp at hw

/-- C8 (confirmed): in both cache wrappers, a response is written to the
cache only when its status is 2xx (`Response.ok`); in particular a 429
response is never stored, so a retry after a rate-limit wait can never be
served a cached rate-limit response. -/
theorem cache_writes_only_2xx :
    (∀ (cached : Option CacheEntry) (net : HttpResp) (w : HttpResp),
      w ∈ (cachedFetch cached net).2 → respOk w = true ∧ w.status ≠ 429) ∧
    (∀ (cached : Option (Option String)) (trace : List HttpResp) (w : HttpResp),
      w ∈ (cachedJsonFetch cached trace).2 → respOk w = true ∧ w.status ≠ 429) := by
  refine ⟨?_, fun cached trace => cachedJsonFetch_writes trace cached⟩
  intro cached net w hw
  match cached with
  | some e => simp [cachedFetch] at hw
  | none =>
    by_cases hok : respOk net = true
    · simp only [cachedFetch, hok, if_true] at hw
      simp at hw
      subst hw
      refine ⟨hok, fun h429 => ?_⟩
      rw [respOk, h429] at hok
      simp at hok
    · simp only [cachedFetch, hok] at hw
      simp at hw

/-- Witness for `cache_writes_only_2xx`: on the trace
`[429-response, 200-response]` the Last.fm wrapper writes exactly the 200
response, which is 2xx and not a 429. -/
theorem cache_writes_only_2xx_witness :
    respOk ⟨200, some "body", []⟩ = true ∧
    (⟨200, some "body", []⟩ : HttpResp).status ≠ 429 :=
  cache_writes_only_2xx.2 none [⟨429, none, []⟩, ⟨200, some "body", []⟩]
    ⟨200, some "body", []⟩ (by decide)

/-! ## Normalization invariants of the Last.fm tag pipeline -/

theorem char_toNat_ofNat (n : Nat) (h : Nat.isValidChar n) :
    (Char.ofNat n).toNat = n := by
  simp [Char.ofNat, h]
  rfl

theorem char_eq_iff_toNat (c d : Char) : c = d ↔ c.toNat = d.toNat := by
  constructor
  · rintro rfl; rfl
  · intro h
    exact Char.ext (UInt32.ext h)

theorem char_le_iff_toNat (c d : Char) : c ≤ d ↔ c.toNat ≤ d.toNat := by
  rw [Char.le_def]
  exact Iff.rfl

theorem jsToLower_toNat (c : Char) :
    (jsToLower c).toNat =
      if 65 ≤ c.toNat ∧ c.toNat ≤ 90 then c.toNat + 32 else c.toNat := by
  rw [jsToLower]
  by_cases h : 65 ≤ c.toNat ∧ c.toNat ≤ 90
  · rw [if_pos h]
    have hb : ('A' ≤ c && c ≤ 'Z') = true := by
      rw [Bool.and_eq_true, decide_eq_true_eq, decide_eq_true_eq,
        char_le_iff_toNat, char_le_iff_toNat]
      exact ⟨h.1, h.2⟩
    rw [if_pos hb]
    exact char_toNat_ofNat _ (Or.inl (by omega))
  · rw [if_neg h]
    have hA : ('A').toNat = 65 := rfl
    have hZ : ('Z').toNat = 90 := rfl
    have hb : ('A' ≤ c && c ≤ 'Z') = false := by
      rw [Bool.and_eq_false_iff]
      rcases Decidable.not_and_iff_or_not.mp h with h1 | h1
      · left
        rw [decide_eq_false_iff_not, char_le_iff_toNat]
        omega
      · right
        rw [decide_eq_false_iff_not, char_le_iff_toNat]
        omega
    rw [hb]
    simp

theorem jsToLower_idem (c : Char) : jsToLower (jsToLower c) = jsToLower c := by
  rw [char_eq_iff_toNat, jsToLower_toNat (jsToLower c), jsToLower_toNat c]
  by_cases h : 65 ≤ c.toNat ∧ c.toNat ≤ 90
  · simp only [if_pos h]
    rw [if_neg (by omega)]
  · simp only [if_neg h]

theorem jsSp_eq_false_of_ge (c : Char) (h : 33 ≤ c.toNat) : jsSp c = false := by
  rw [jsSp]
  simp only [Bool.or_eq_false_iff, decide_eq_false_iff_not]
  have e1 : (' ').toNat = 32 := rfl
  have e2 : ('\t').toNat = 9 := rfl
  have e3 : ('\n').toNat = 10 := rfl
  have e4 : ('\x0b').toNat = 11 := rfl
  have e5 : ('\x0c').toNat = 12 := rfl
  have e6 : ('\r').toNat = 13 := rfl
  refine ⟨⟨⟨⟨⟨?_, ?_⟩, ?_⟩, ?_⟩, ?_⟩, ?_⟩ <;> intro he <;>
    rw [char_eq_iff_toNat] at he <;> omega

theorem jsSp_jsToLower (c : Char) : jsSp (jsToLower c) = jsSp c := by
  by_cases h : 65 ≤ c.toNat ∧ c.toNat ≤ 90
  · have hcn : jsSp c = false := jsSp_eq_false_of_ge c (by omega)
    have hln : jsSp (jsToLower c) = false := by
      apply jsSp_eq_false_of_ge
      rw [jsToLower_toNat, if_pos h]
      omega
    rw [hcn, hln]
  · have hfix : jsToLower c = c := by
      rw [char_eq_iff_toNat, jsToLower_toNat, if_neg h]
    rw [hfix]

theorem dropWhile_head_false {p : Char → Bool} (l : List Char) (c : Char)
    (h : (l.dropWhile p).head? = some c) : p c = false := by
  have hd := List.head?_dropWhile_not p l
  rw [h] at hd
  exact hd

theorem trimWs_head (l : List Char) (c : Char) (h : (trimWs l).head? = some c) :
    jsSp c = false := by
  rw [trimWs, List.head?_reverse] at h
  obtain ⟨t, ht⟩ := List.dropWhile_suffix (l := (l.dropWhile jsSp).reverse) jsSp
  rcases hz : ((l.dropWhile jsSp).reverse).dropWhile jsSp with _ | ⟨z0, zs⟩
  · rw [hz] at h
    simp at h
  · rw [hz] at ht h
    have hlast : ((l.dropWhile jsSp).reverse).getLast? = some c := by
      rw [← ht, List.getLast?_append_of_ne_nil _ (by simp)]
      exact h
    rw [List.getLast?_reverse] at hlast
    exact dropWhile_head_false l c hlast

theorem trimWs_getLast (l : List Char) (c : Char)
    (h : (trimWs l).getLast? = some c) : jsSp c = false := by
  rw [trimWs, List.getLast?_reverse] at h
  exact dropWhile_head_false _ c h

theorem trimWs_idem (l : List Char) : trimWs (trimWs l) = trimWs l := by
  have h1 : (trimWs l).dropWhile jsSp = trimWs l := by
    rcases hd : trimWs l with _ | ⟨c, cs⟩
    · rfl
    · have hc := trimWs_head l c (by rw [hd]; rfl)
      rw [List.dropWhile_cons, hc]
      simp
  have h2 : (trimWs l).reverse.dropWhile jsSp = (trimWs l).reverse := by
    rcases hd : (trimWs l).reverse with _ | ⟨c, cs⟩
    · rfl
    · have hlast : (trimWs l).getLast? = some c := by
        rw [← List.head?_reverse, hd]
        rfl
      have hc := trimWs_getLast l c hlast
      rw [List.dropWhile_cons, hc]
      simp
  rw [trimWs, h1, h2, List.reverse_reverse]

theorem trimWs_map_jsToLower (l : List Char) :
    trimWs (l.map jsToLower) = (trimWs l).map jsToLower := by
  have hpf : (jsSp ∘ jsToLower) = jsSp := funext jsSp_jsToLower
  rw [trimWs, trimWs, List.dropWhile_map, hpf, ← List.map_reverse,
    List.dropWhile_map, hpf, ← List.map_reverse]

theorem normalizeTag_idem (t : String) :
    normalizeTag (normalizeTag t) = normalizeTag t := by
  rw [normalizeTag, normalizeTag]
  congr 1
  rw [show (String.mk ((trimWs t.toList).map jsToLower)).toList =
      (trimWs t.toList).map jsToLower from rfl]
  rw [trimWs_map_jsToLower, trimWs_idem, List.map_map]
  exact List.map_congr_left fun c _ => jsToLower_idem c

/-- C9 (confirmed): with the Last.fm API key unset (or empty, both falsy
in JavaScript), `getLastfmTrackTags` returns the empty tag list and
performs no lookup at all, whatever the oracle would answer; no error
path exists. -/
theorem getLastfmTrackTags_disabled (env : LfmEnv) (artistName trackName : String)
    (optLimit : Option Nat) (hkey : jsFalsyStr env.apiKey = true) :
    getLastfmTrackTags env artistName trackName optLimit = ([], []) := by
  simp [getLastfmTrackTags, hkey]

/-- Witness for `getLastfmTrackTags_disabled`: an absent key with an
oracle that would answer tags still yields no tags and no lookups. -/
theorem getLastfmTrackTags_disabled_witness :
    getLastfmTrackTags ⟨none, fun _ _ => ["Rock"], fun _ => ["Rock"]⟩ "a" "t" none
      = ([], []) :=
  getLastfmTrackTags_disabled _ "a" "t" none (by decide)

theorem tagsFromRaw_props (raw : List String) :
    ∀ x ∈ tagsFromRaw raw, x ≠ "" ∧ normalizeTag x = x ∧ isJunkTag x = false := by
  intro x hx
  rw [tagsFromRaw] at hx
  obtain ⟨hmap, hp⟩ := List.mem_filter.mp hx
  simp only [Bool.and_eq_true, Bool.not_eq_true', decide_eq_true_eq] at hp
  obtain ⟨y, _, rfl⟩ := List.mem_map.mp hmap
  exact ⟨hp.1, normalizeTag_idem y, hp.2⟩

theorem runCandidates_gathered (env : LfmEnv) :
    ∀ (cs : List LfmQuery), (runCandidates env cs).1 = [] ∨
      ∃ raw, (runCandidates env cs).1 = tagsFromRaw raw := by
  intro cs
  induction cs with
  | nil => exact Or.inl rfl
  | cons c cs ih =>
    rcases c with ⟨a, t⟩ | a
    · rw [runCandidates]
      by_cases he : (fetchLastfmTrackTopTags env a t).isEmpty
      · simpa [he] using ih
      · simp only [he, Bool.false_eq_true, if_false]
        exact Or.inr ⟨env.trackTagsRaw a t, rfl⟩
    · rw [runCandidates]
      by_cases he : (fetchLastfmArtistTopTags env a).isEmpty
      · simpa [he] using ih
      · simp only [he, Bool.false_eq_true, if_false]
        exact Or.inr ⟨env.artistTagsRaw a, rfl⟩

theorem dedupeLimitGo_subset (limit : Nat) :
    ∀ (ns seen unique : List String) (x : String),
    x ∈ dedupeLimitGo limit seen unique ns → x ∈ unique ∨ x ∈ ns := by
  intro ns
  induction ns with
  | nil => intro seen unique x hx; exact Or.inl hx
  | cons n ns ih =>
    intro seen unique x hx
    rw [dedupeLimitGo] at hx
    by_cases hmem : n ∈ seen
    · simp only [if_pos hmem] at hx
      by_cases hlim : limit ≤ unique.length
      · rw [if_pos hlim] at hx
        exact Or.inl hx
      · rw [if_neg hlim] at hx
        rcases ih seen unique x hx with h | h
        · exact Or.inl h
        · exact Or.inr (List.mem_cons_of_mem _ h)
    · simp only [if_neg hmem] at hx
      by_cases hlim : limit ≤ (unique ++ [n]).length
      · rw [if_pos hlim] at hx
        rcases List.mem_append.mp hx with h | h
        · exact Or.inl h
        · simp only [List.mem_singleton] at h
          exact Or.inr (h ▸ List.mem_cons_self _ _)
      · rw [if_neg hlim] at hx
        rcases ih (n :: seen) (unique ++ [n]) x hx with h | h
        · rcases List.mem_append.mp h with h2 | h2
          · exact Or.inl h2
          · simp only [List.mem_singleton] at h2
            exact Or.inr (h2 ▸ List.mem_cons_self _ _)
        · exact Or.inr (List.mem_cons_of_mem _ h)

theorem dedupeLimitGo_nodup (limit : Nat) :
    ∀ (ns seen unique : List String), unique.Nodup → (∀ u ∈ unique, u ∈ seen) →
    (dedupeLimitGo limit seen unique ns).Nodup := by
  intro ns
  induction ns with
  | nil => intro seen unique hnd _; exact hnd
  | cons n ns ih =>
    intro seen unique hnd hsub
    rw [dedupeLimitGo]
    by_cases hmem : n ∈ seen
    · simp only [if_pos hmem]
      by_cases hlim : limit ≤ unique.length
      · rw [if_pos hlim]
        exact hnd
      · rw [if_neg hlim]
        exact ih seen unique hnd hsub
    · simp only [if_neg hmem]
      have hnd2 : (unique ++ [n]).Nodup := by
        rw [List.nodup_append]
        refine ⟨hnd, List.nodup_singleton n, ?_⟩
        intro u hu hun
        simp only [List.mem_singleton] at hun
        subst hun
        exact hmem (hsub u hu)
      by_cases hlim : limit ≤ (unique ++ [n]).length
      · rw [if_pos hlim]
        exact hnd2
      · rw [if_neg hlim]
        refine ih (n :: seen) (unique ++ [n]) hnd2 ?_
        intro u hu
        rcases List.mem_append.mp hu with h | h
        · exact List.mem_cons_of_mem _ (hsub u h)
        · simp only [List.mem_singleton] at h
          exact h ▸ List.mem_cons_self _ _

theorem dedupeLimitGo_length_le (limit : Nat) :
    ∀ (ns seen unique : List String), unique.length < limit →
    (dedupeLimitGo limit seen unique ns).length ≤ limit := by
  intro ns
  induction ns with
  | nil =>
    intro seen unique hlt
    simp only [dedupeLimitGo]
    omega
  | cons n ns ih =>
    intro seen unique hlt
    rw [dedupeLimitGo]
    by_cases hmem : n ∈ seen
    · simp only [if_pos hmem]
      by_cases hlim : limit ≤ unique.length
      · omega
      · rw [if_neg hlim]
        exact ih seen unique (by omega)
    · simp only [if_neg hmem]
      by_cases hlim : limit ≤ (unique ++ [n]).length
      · rw [if_pos hlim]
        rw [List.length_append]
        simp only [List.length_singleton]
        omega
      · rw [if_neg hlim]
        refine ih (n :: seen) (unique ++ [n]) ?_
        rw [List.length_append] at hlim ⊢
        simp only [List.length_singleton] at hlim ⊢
        omega

theorem dedupeLimitGo_length_zero :
    ∀ (ns seen unique : List String),
    (dedupeLimitGo 0 seen unique ns).length ≤ unique.length + 1 := by
  intro ns
  induction ns with
  | nil =>
    intro seen unique
    simp only [dedupeLimitGo]
    omega
  | cons n ns _ =>
    intro seen unique
    rw [dedupeLimitGo]
    by_cases hmem : n ∈ seen
    · simp only [if_pos hmem, Nat.zero_le, if_pos]
      omega
    · simp only [if_neg hmem, Nat.zero_le, if_pos]
      rw [List.length_append]
      simp

theorem dedupeLimitGo_length_max (limit : Nat) (ns : List String) :
    (dedupeLimitGo limit [] [] ns).length ≤ max limit 1 := by
  rcases limit with _ | l
  · have h := dedupeLimitGo_length_zero ns [] []
    simp only [List.length_nil] at h
    omega
  · have h := dedupeLimitGo_length_le (l + 1) ns [] [] (by simp)
    omega

/-- C10, counterexample: with `options.limit = 0` the dedupe loop pushes
the first tag before testing the break condition, so one tag is returned
and the result length exceeds the limit option. -/
theorem getLastfmTrackTags_limit_cex :
    (getLastfmTrackTags ⟨some "k", fun _ _ => ["rock"], fun _ => []⟩
      "a" "t" (some 0)).1 = ["rock"] ∧
    ¬((getLastfmTrackTags ⟨some "k", fun _ _ => ["rock"], fun _ => []⟩
      "a" "t" (some 0)).1.length ≤ (some (0 : Nat)).getD 5) := by
  decide

/-- C10, amended: every returned tag is non-empty, already normalized
(it equals its own trimmed lower-cased form, so original Last.fm casing
is never preserved), and not junk per `isJunkTag`; the list has no
duplicates; and its length never exceeds `max limit 1` — hence never
exceeds the limit whenever the limit is at least 1 (default 5), while a
limit of 0 can still let one tag through. -/
theorem getLastfmTrackTags_props (env : LfmEnv) (artistName trackName : String)
    (optLimit : Option Nat) :
    (∀ x ∈ (getLastfmTrackTags env artistName trackName optLimit).1,
      x ≠ "" ∧ normalizeTag x = x ∧ isJunkTag x = false) ∧
    (getLastfmTrackTags env artistName trackName optLimit).1.Nodup ∧
    (getLastfmTrackTags env artistName trackName optLimit).1.length ≤
      max (optLimit.getD 5) 1 := by
  rw [getLastfmTrackTags]
  by_cases hkey : jsFalsyStr env.apiKey = true
  · simp [hkey]
  · rw [if_neg hkey]
    by_cases hname : ((trimWs artistName.toList).isEmpty ||
        (trimWs trackName.toList).isEmpty) = true
    · rw [if_pos hname]
      simp
    · rw [if_neg hname]
      dsimp only
      refine ⟨?_, ?_, ?_⟩
      · intro x hx
        rcases dedupeLimitGo_subset _ _ _ _ x hx with h | h
        · simp at h
        · rcases runCandidates_gathered env _ with hg | ⟨raw, hg⟩
          · rw [hg] at h
            simp at h
          · rw [hg] at h
            exact tagsFromRaw_props raw x h
      · exact dedupeLimitGo_nodup _ _ _ _ List.nodup_nil (by simp)
      · exact dedupeLimitGo_length_max _ _

/-- Witness for `getLastfmTrackTags_props` at a concrete oracle and
limit 2. -/
theorem getLastfmTrackTags_props_witness :
    (∀ x ∈ (getLastfmTrackTags ⟨some "k", fun _ _ => ["Rock", "2010s", "pop"],
        fun _ => []⟩ "a" "t" (some 2)).1,
      x ≠ "" ∧ normalizeTag x = x ∧ isJunkTag x = false) ∧
    (getLastfmTrackTags ⟨some "k", fun _ _ => ["Rock", "2010s", "pop"],
        fun _ => []⟩ "a" "t" (some 2)).1.Nodup ∧
    (getLastfmTrackTags ⟨some "k", fun _ _ => ["Rock", "2010s", "pop"],
        fun _ => []⟩ "a" "t" (some 2)).1.length ≤ max ((some (2 : Nat)).getD 5) 1 :=
  getLastfmTrackTags_props _ "a" "t" (some 2)
